import Mathlib

/-!
# Task-lease manager of `database/database.go`

A shallow embedding of the task store, the scan cursor `oldestNotFinishedTask`
and the request handlers `getByID`, `getNewTask`, `finishTask`, `newTask` and
`setByID`, together with the lease timer that `getNewTask` starts.

Go's `int` is modelled by `Int`, the slice `datastore` by `List Task`.  Every
handler is embedded from the point where its method check and the parsing of
its input have succeeded, and maps the shared state to a reply and the state it
leaves behind.  The critical sections of the handlers are taken as atomic
steps, which is what the two mutexes provide; `json.Marshal` of a `Task` does
not fail, so its error branches are left out.

A slice access with an index outside `[0, len)` is a runtime error in Go.  The
handler writes no reply then and never reaches the `Unlock` that follows the
access; the state it leaves is the state before the access.  This outcome is
modelled by the reply `Reply.panicked`.
-/

namespace Microsrv

/-- Task record `Task` of `database.go`: both fields are Go `int`s. -/
structure Task where
  ID : Int
  State : Int
deriving DecidableEq

/-- Shared state of the process: the slice `datastore` and the scan cursor
`oldestNotFinishedTask`. -/
structure DB where
  datastore : List Task
  oldestNotFinishedTask : Int
deriving DecidableEq

/-- What a handler leaves on the wire.  `badRequest` is a reply with status 400
and the given text; `panicked` is the runtime error of an out-of-range slice
access, after which the handler writes nothing. -/
inductive Reply where
  | task (t : Task)
  | newID (id : Int)
  | success
  | badRequest (msg : String)
  | panicked
deriving DecidableEq

/-- Slice read `datastore[i]`: `none` stands for the index-out-of-range runtime
error. -/
def index (ds : List Task) (i : Int) : Option Task :=
  if 0 ≤ i then ds[i.toNat]? else none

/-- Slice write `datastore[i] = t`: `none` stands for the index-out-of-range
runtime error. -/
def assign (ds : List Task) (i : Int) (t : Task) : Option (List Task) :=
  if 0 ≤ i ∧ i < ds.length then some (ds.set i.toNat t) else none

/-- Handler `getByID`, lines 66-88, for a parsed `id`. -/
def getByID (db : DB) (id : Int) : Reply × DB :=
  let bIsInError : Bool := decide (id ≥ db.datastore.length)
  if bIsInError then (Reply.badRequest "Wrong input", db)
  else
    match index db.datastore id with
    | none => (Reply.panicked, db)
    | some value => (Reply.task value, db)

/-- The `for` loop of `getNewTask`, lines 115-125, entered at loop variable `i`
with the cursor `oldestNotFinishedTask` and the result slot `taskToSend`.  It
yields the slice, the cursor and the result slot at loop exit, or `none` for a
runtime error. -/
def scan (datastore : List Task) (oldestNotFinishedTask : Int) (taskToSend : Task)
    (i : Int) : Option (List Task × Int × Task) :=
  if i < datastore.length then
    match index datastore i with
    | none => none
    | some t =>
      if t.State = 2 ∧ i = oldestNotFinishedTask then
        scan datastore (oldestNotFinishedTask + 1) taskToSend (i + 1)
      else if t.State = 0 then
        match assign datastore i ⟨i, 1⟩ with
        | none => none
        | some ds1 =>
          match index ds1 i with
          | none => none
          | some sent => some (ds1, oldestNotFinishedTask, sent)
      else scan datastore oldestNotFinishedTask taskToSend (i + 1)
  else some (datastore, oldestNotFinishedTask, taskToSend)
termination_by (datastore.length - i).toNat
decreasing_by
  all_goals simp_wf
  all_goals omega

/-- Handler `getNewTask`, lines 97-154.  The goroutine started on success is
the lease timer `leaseTimer` for the id of the task sent. -/
def getNewTask (db : DB) : Reply × DB :=
  if db.datastore.length = 0 then (Reply.badRequest "Error: No non-started task.", db)
  else
    match scan db.datastore db.oldestNotFinishedTask ⟨-1, 0⟩ db.oldestNotFinishedTask with
    | none => (Reply.panicked, db)
    | some (ds, oNFT, taskToSend) =>
      if taskToSend.ID = -1 then (Reply.badRequest "Error: No non-started task.", ⟨ds, oNFT⟩)
      else (Reply.task taskToSend, ⟨ds, oNFT⟩)

/-- Body of the goroutine of `getNewTask`, lines 139-143, when the sleep is
over: the lease timer of task `myID` fires. -/
def leaseTimer (db : DB) (myID : Int) : Option DB :=
  match index db.datastore myID with
  | none => none
  | some t =>
    if t.State = 1 then
      match assign db.datastore myID ⟨myID, 0⟩ with
      | none => none
      | some ds => some ⟨ds, db.oldestNotFinishedTask⟩
    else some db

/-- Handler `finishTask`, lines 182-200, for a parsed `id`. -/
def finishTask (db : DB) (id : Int) : Reply × DB :=
  let updatedTask : Task := ⟨id, 2⟩
  match index db.datastore id with
  | none => (Reply.panicked, db)
  | some t =>
    if t.State = 1 then
      match assign db.datastore id updatedTask with
      | none => (Reply.panicked, db)
      | some ds => (Reply.success, ⟨ds, db.oldestNotFinishedTask⟩)
    else (Reply.badRequest "Error: Wrong input", db)

/-- Handler `newTask`, lines 224-232. -/
def newTask (db : DB) : Reply × DB :=
  let taskToAdd : Task := ⟨db.datastore.length, 0⟩
  match assign db.datastore taskToAdd.ID taskToAdd with
  | none => (Reply.panicked, db)
  | some ds => (Reply.newID taskToAdd.ID, ⟨ds, db.oldestNotFinishedTask⟩)

/-- Handler `setByID`, lines 256-271, for the task `taskToSet` decoded from the
request body. -/
def setByID (db : DB) (taskToSet : Task) : Reply × DB :=
  if taskToSet.ID ≥ db.datastore.length ∨ taskToSet.State > 2 ∨ taskToSet.State < 0 then
    (Reply.badRequest "Error: Wrong input", db)
  else
    match assign db.datastore taskToSet.ID taskToSet with
    | none => (Reply.panicked, db)
    | some ds => (Reply.success, ⟨ds, db.oldestNotFinishedTask⟩)

/-! ## Observations used in the statements -/

/-- State of the entry at index `i`, `none` outside the slice. -/
def stateOf (ds : List Task) (i : Int) : Option Int :=
  (index ds i).map Task.State

/-- Length of the maximal run of consecutive Done (2) entries of `ds` that
starts exactly at index `c`. -/
def doneRun (ds : List Task) (c : Nat) : Nat :=
  ((ds.drop c).takeWhile (fun t => decide (t.State = 2))).length

/-- Number of Pending (0) entries at the indices `c`, `c+1`, ... of `ds`. -/
def pendingFrom (ds : List Task) (c : Nat) : Nat :=
  (ds.drop c).countP (fun t => decide (t.State = 0))

/-- Entry `j` is the first Pending entry of `ds` at an index from `c` on. -/
def FirstPending (ds : List Task) (c j : Nat) : Prop :=
  c ≤ j ∧ (∃ t, ds[j]? = some t ∧ t.State = 0) ∧
    ∀ m t, c ≤ m → m < j → ds[m]? = some t → t.State ≠ 0

/-- The cursor does not exceed the length and every entry at an index below the
cursor is Done (2). -/
def CursorInv (db : DB) : Prop :=
  db.oldestNotFinishedTask ≤ db.datastore.length ∧
    ∀ j : Int, 0 ≤ j → j < db.oldestNotFinishedTask → stateOf db.datastore j = some 2

/-- Operations other than `setByID`: a `getNewTask` call, a `finishTask` call,
a lease timer firing, a `newTask` call, a `getByID` call. -/
inductive Op where
  | fetch
  | finish (id : Int)
  | timer (id : Int)
  | create
  | get (id : Int)
deriving DecidableEq

/-- State left by one operation.  An operation that ends in the runtime error
leaves the state as it found it. -/
def step (db : DB) : Op → DB
  | Op.fetch => (getNewTask db).2
  | Op.finish id => (finishTask db id).2
  | Op.timer id => (leaseTimer db id).getD db
  | Op.create => (newTask db).2
  | Op.get id => (getByID db id).2

/-- State left by a sequence of operations, executed one after the other. -/
def run (db : DB) (ops : List Op) : DB :=
  ops.foldl step db

/-- Replies, in call order, and final state of `n` calls of `getNewTask` executed
one after the other with no other operation in between. -/
def fetchN : Nat → DB → List Reply × DB
  | 0, db => ([], db)
  | n + 1, db => ((getNewTask db).1 :: (fetchN n (getNewTask db).2).1,
      (fetchN n (getNewTask db).2).2)

/-! ## Slice access at natural indices -/

theorem index_natCast (ds : List Task) (n : Nat) : index ds (n : Int) = ds[n]? := by
  simp [index]

theorem index_of_neg (ds : List Task) (i : Int) (h : i < 0) : index ds i = none := by
  simp [index, h]

theorem index_of_ge (ds : List Task) (i : Int) (h : (ds.length : Int) ≤ i) :
    index ds i = none := by
  unfold index
  split
  · apply List.getElem?_eq_none
    omega
  · rfl

theorem assign_natCast (ds : List Task) (n : Nat) (t : Task) :
    assign ds (n : Int) t = if n < ds.length then some (ds.set n t) else none := by
  simp [assign]

/-- One iteration of the loop of `getNewTask` at natural cursor and index. -/
theorem scan_step (ds : List Task) (c i : Nat) (tts : Task) :
    scan ds (c : Int) tts (i : Int) =
      if i < ds.length then
        match ds[i]? with
        | none => none
        | some t =>
          if t.State = 2 ∧ i = c then scan ds ((c + 1 : Nat) : Int) tts ((i + 1 : Nat) : Int)
          else if t.State = 0 then some (ds.set i ⟨(i : Int), 1⟩, (c : Int), ⟨(i : Int), 1⟩)
          else scan ds (c : Int) tts ((i + 1 : Nat) : Int)
      else some (ds, (c : Int), tts) := by
  rw [scan]
  by_cases hlt : i < ds.length
  · have hlt2 : (i : Int) < (ds.length : Int) := by exact_mod_cast hlt
    simp only [hlt, hlt2, if_true, index_natCast, assign_natCast]
    cases hget : ds[i]? with
    | none => rfl
    | some t =>
      simp only [Nat.cast_inj, Nat.cast_add, Nat.cast_one, List.length_set, hlt, if_true,
        List.getElem?_set_self hlt]
  · have hlt2 : ¬ (i : Int) < (ds.length : Int) := by exact_mod_cast hlt
    simp only [hlt, hlt2, if_false]

theorem scan_exit (ds : List Task) (c i : Nat) (tts : Task) (h : ds.length ≤ i) :
    scan ds (c : Int) tts (i : Int) = some (ds, (c : Int), tts) := by
  rw [scan_step, if_neg (by omega)]

theorem scan_done (ds : List Task) (c : Nat) (tts t : Task) (hget : ds[c]? = some t)
    (hs : t.State = 2) :
    scan ds (c : Int) tts (c : Int) = scan ds ((c + 1 : Nat) : Int) tts ((c + 1 : Nat) : Int) := by
  have hlt : c < ds.length := (List.getElem?_eq_some.mp hget).1
  rw [scan_step, if_pos hlt, hget]
  simp only [hs, and_self, if_true]

theorem scan_hit (ds : List Task) (c i : Nat) (tts t : Task) (hget : ds[i]? = some t)
    (hs : t.State = 0) :
    scan ds (c : Int) tts (i : Int) = some (ds.set i ⟨(i : Int), 1⟩, (c : Int), ⟨(i : Int), 1⟩) := by
  have hlt : i < ds.length := (List.getElem?_eq_some.mp hget).1
  rw [scan_step, if_pos hlt, hget]
  simp [hs]

theorem scan_skip (ds : List Task) (c i : Nat) (tts t : Task) (hget : ds[i]? = some t)
    (hs : t.State ≠ 0) (hc : ¬ (t.State = 2 ∧ i = c)) :
    scan ds (c : Int) tts (i : Int) = scan ds (c : Int) tts ((i + 1 : Nat) : Int) := by
  have hlt : i < ds.length := (List.getElem?_eq_some.mp hget).1
  rw [scan_step, if_pos hlt, hget]
  simp only [hc, hs, if_false]

/-! ## The scan once the loop variable has left the cursor behind -/

/-- Past the cursor the loop changes nothing when no entry from `i` on is
Pending. -/
theorem scan_past_none (ds : List Task) (c : Nat) (tts : Task) :
    ∀ (n i : Nat), ds.length - i = n → c < i →
      (∀ m t, i ≤ m → ds[m]? = some t → t.State ≠ 0) →
      scan ds (c : Int) tts (i : Int) = some (ds, (c : Int), tts) := by
  intro n
  induction n with
  | zero =>
    intro i hn _ _
    exact scan_exit ds c i tts (by omega)
  | succ n ih =>
    intro i hn hci hnone
    have hlt : i < ds.length := by omega
    have hget : ds[i]? = some ds[i] := List.getElem?_eq_getElem hlt
    rw [scan_skip ds c i tts ds[i] hget (hnone i _ (Nat.le_refl i) hget) (by omega)]
    exact ih (i + 1) (by omega) (by omega) (fun m t hm => hnone m t (by omega))

/-- Past the cursor the loop claims the first Pending entry from `i` on. -/
theorem scan_past_found (ds : List Task) (c : Nat) (tts : Task) (j : Nat) (tj : Task)
    (hj : ds[j]? = some tj) (hjs : tj.State = 0) :
    ∀ (d i : Nat), j - i = d → i ≤ j → c < i →
      (∀ m t, i ≤ m → m < j → ds[m]? = some t → t.State ≠ 0) →
      scan ds (c : Int) tts (i : Int) =
        some (ds.set j ⟨(j : Int), 1⟩, (c : Int), ⟨(j : Int), 1⟩) := by
  have hjlt : j < ds.length := (List.getElem?_eq_some.mp hj).1
  intro d
  induction d with
  | zero =>
    intro i hd hij _ _
    have : i = j := by omega
    subst this
    exact scan_hit ds c i tts tj hj hjs
  | succ d ih =>
    intro i hd hij hci hnone
    have hlt : i < ds.length := by omega
    have hget : ds[i]? = some ds[i] := List.getElem?_eq_getElem hlt
    rw [scan_skip ds c i tts ds[i] hget (hnone i _ (Nat.le_refl i) (by omega) hget) (by omega)]
    exact ih (i + 1) (by omega) (by omega) (by omega)
      (fun m t hm hmj => hnone m t (by omega) hmj)

/-! ## The run of Done entries at the cursor -/

theorem doneRun_of_ge (ds : List Task) (c : Nat) (h : ds.length ≤ c) : doneRun ds c = 0 := by
  simp [doneRun, List.drop_eq_nil_of_le h]

theorem doneRun_of_done (ds : List Task) (c : Nat) (t : Task) (hget : ds[c]? = some t)
    (hs : t.State = 2) : doneRun ds c = doneRun ds (c + 1) + 1 := by
  obtain ⟨hlt, rfl⟩ := List.getElem?_eq_some.mp hget
  unfold doneRun
  rw [List.drop_eq_getElem_cons hlt, List.takeWhile_cons_of_pos (by simpa using hs)]
  rfl

theorem doneRun_of_not_done (ds : List Task) (c : Nat) (t : Task) (hget : ds[c]? = some t)
    (hs : t.State ≠ 2) : doneRun ds c = 0 := by
  obtain ⟨hlt, rfl⟩ := List.getElem?_eq_some.mp hget
  unfold doneRun
  rw [List.drop_eq_getElem_cons hlt, List.takeWhile_cons_of_neg (by simpa using hs)]
  rfl

theorem doneRun_bound (ds : List Task) :
    ∀ (n c : Nat), ds.length - c = n → c ≤ ds.length → c + doneRun ds c ≤ ds.length := by
  intro n
  induction n with
  | zero =>
    intro c hn hc
    rw [doneRun_of_ge ds c (by omega)]
    omega
  | succ n ih =>
    intro c hn hc
    have hlt : c < ds.length := by omega
    have hget : ds[c]? = some ds[c] := List.getElem?_eq_getElem hlt
    by_cases hs : ds[c].State = 2
    · rw [doneRun_of_done ds c _ hget hs]
      have := ih (c + 1) (by omega) (by omega)
      omega
    · rw [doneRun_of_not_done ds c _ hget hs]
      omega

theorem doneRun_all_done (ds : List Task) :
    ∀ (n c : Nat), ds.length - c = n →
      ∀ m t, c ≤ m → m < c + doneRun ds c → ds[m]? = some t → t.State = 2 := by
  intro n
  induction n with
  | zero =>
    intro c hn m t hcm hm _
    rw [doneRun_of_ge ds c (by omega)] at hm
    omega
  | succ n ih =>
    intro c hn m t hcm hm hmt
    have hlt : c < ds.length := by omega
    have hget : ds[c]? = some ds[c] := List.getElem?_eq_getElem hlt
    by_cases hs : ds[c].State = 2
    · rw [doneRun_of_done ds c _ hget hs] at hm
      by_cases hmc : m = c
      · subst hmc
        rw [hget] at hmt
        cases hmt
        exact hs
      · exact ih (c + 1) (by omega) m t (by omega) (by omega) hmt
    · rw [doneRun_of_not_done ds c _ hget hs] at hm
      omega

theorem doneRun_stop (ds : List Task) :
    ∀ (n c : Nat), ds.length - c = n →
      ∀ t, ds[c + doneRun ds c]? = some t → t.State ≠ 2 := by
  intro n
  induction n with
  | zero =>
    intro c hn t ht
    have := (List.getElem?_eq_some.mp ht).1
    have := doneRun_of_ge ds c (by omega)
    omega
  | succ n ih =>
    intro c hn t ht
    have hlt : c < ds.length := by omega
    have hget : ds[c]? = some ds[c] := List.getElem?_eq_getElem hlt
    by_cases hs : ds[c].State = 2
    · rw [doneRun_of_done ds c _ hget hs] at ht
      have h2 : c + (doneRun ds (c + 1) + 1) = c + 1 + doneRun ds (c + 1) := by omega
      rw [h2] at ht
      exact ih (c + 1) (by omega) t ht
    · rw [doneRun_of_not_done ds c _ hget hs] at ht
      rw [Nat.add_zero, hget] at ht
      cases ht
      exact hs

/-! ## The scan entered at the cursor -/

/-- Entered at the cursor, the loop advances the cursor over the run of Done
entries and changes nothing else when no entry from the cursor on is Pending. -/
theorem scan_cursor_none (ds : List Task) (tts : Task) :
    ∀ (n c : Nat), ds.length - c = n →
      (∀ m t, c ≤ m → ds[m]? = some t → t.State ≠ 0) →
      scan ds (c : Int) tts (c : Int) = some (ds, ((c + doneRun ds c : Nat) : Int), tts) := by
  intro n
  induction n with
  | zero =>
    intro c hn _
    rw [scan_exit ds c c tts (by omega), doneRun_of_ge ds c (by omega)]
    rfl
  | succ n ih =>
    intro c hn hnone
    have hlt : c < ds.length := by omega
    have hget : ds[c]? = some ds[c] := List.getElem?_eq_getElem hlt
    by_cases hs : ds[c].State = 2
    · rw [scan_done ds c tts _ hget hs, doneRun_of_done ds c _ hget hs,
        ih (c + 1) (by omega) (fun m t hm => hnone m t (by omega))]
      have h2 : c + (doneRun ds (c + 1) + 1) = c + 1 + doneRun ds (c + 1) := by omega
      rw [h2]
    · rw [scan_skip ds c c tts _ hget (hnone c _ (Nat.le_refl c) hget) (fun h => hs h.1),
        doneRun_of_not_done ds c _ hget hs]
      exact scan_past_none ds c tts _ (c + 1) rfl (by omega)
        (fun m t hm => hnone m t (by omega))

/-- Entered at the cursor, the loop advances the cursor over the run of Done
entries and claims the first Pending entry from the cursor on. -/
theorem scan_cursor_found (ds : List Task) (tts : Task) (j : Nat) (tj : Task)
    (hj : ds[j]? = some tj) (hjs : tj.State = 0) :
    ∀ (d c : Nat), j - c = d → c ≤ j →
      (∀ m t, c ≤ m → m < j → ds[m]? = some t → t.State ≠ 0) →
      scan ds (c : Int) tts (c : Int) =
          some (ds.set j ⟨(j : Int), 1⟩, ((c + doneRun ds c : Nat) : Int), ⟨(j : Int), 1⟩) ∧
        c + doneRun ds c ≤ j := by
  have hjlt : j < ds.length := (List.getElem?_eq_some.mp hj).1
  intro d
  induction d with
  | zero =>
    intro c hd hcj _
    have : c = j := by omega
    subst this
    rw [scan_hit ds c c tts tj hj hjs, doneRun_of_not_done ds c tj hj (by omega)]
    exact ⟨rfl, Nat.le_refl _⟩
  | succ d ih =>
    intro c hd hcj hnone
    have hlt : c < ds.length := by omega
    have hget : ds[c]? = some ds[c] := List.getElem?_eq_getElem hlt
    have hc0 : ds[c].State ≠ 0 := hnone c _ (Nat.le_refl c) (by omega) hget
    by_cases hs : ds[c].State = 2
    · rw [scan_done ds c tts _ hget hs, doneRun_of_done ds c _ hget hs]
      have h2 : c + (doneRun ds (c + 1) + 1) = c + 1 + doneRun ds (c + 1) := by omega
      rw [h2]
      exact ih (c + 1) (by omega) (by omega) (fun m t hm hmj => hnone m t (by omega) hmj)
    · rw [scan_skip ds c c tts _ hget hc0 (fun h => hs h.1),
        doneRun_of_not_done ds c _ hget hs]
      refine ⟨?_, by omega⟩
      exact scan_past_found ds c tts j tj hj hjs _ (c + 1) rfl (by omega) (by omega)
        (fun m t hm hmj => hnone m t (by omega) hmj)

/-! ## The handler `getNewTask` at a natural cursor -/

theorem firstPending_exists (ds : List Task) (c : Nat)
    (h : ∃ m t, c ≤ m ∧ ds[m]? = some t ∧ t.State = 0) : ∃ j, FirstPending ds c j := by
  classical
  have h2 : ∃ m, c ≤ m ∧ ∃ t, ds[m]? = some t ∧ t.State = 0 := by
    obtain ⟨m, t, hm, ht⟩ := h
    exact ⟨m, hm, t, ht⟩
  refine ⟨Nat.find h2, (Nat.find_spec h2).1, (Nat.find_spec h2).2, ?_⟩
  intro m t hcm hm hget hs
  exact Nat.find_min h2 hm ⟨hcm, t, hget, hs⟩

theorem getNewTask_none (ds : List Task) (c : Nat)
    (hnone : ∀ m t, c ≤ m → ds[m]? = some t → t.State ≠ 0) :
    getNewTask ⟨ds, (c : Int)⟩ =
      (Reply.badRequest "Error: No non-started task.", ⟨ds, ((c + doneRun ds c : Nat) : Int)⟩) := by
  unfold getNewTask
  by_cases h0 : ds.length = 0
  · simp only [h0, if_true]
    rw [doneRun_of_ge ds c (by omega)]
    rfl
  · simp only [h0, if_false]
    rw [scan_cursor_none ds ⟨-1, 0⟩ _ c rfl hnone]
    simp

theorem getNewTask_found (ds : List Task) (c j : Nat) (h : FirstPending ds c j) :
    getNewTask ⟨ds, (c : Int)⟩ =
        (Reply.task ⟨(j : Int), 1⟩,
          ⟨ds.set j ⟨(j : Int), 1⟩, ((c + doneRun ds c : Nat) : Int)⟩) ∧
      c + doneRun ds c ≤ j := by
  obtain ⟨hcj, ⟨tj, hj, hjs⟩, hmin⟩ := h
  have hjlt : j < ds.length := (List.getElem?_eq_some.mp hj).1
  have hscan := scan_cursor_found ds ⟨-1, 0⟩ j tj hj hjs _ c rfl hcj hmin
  refine ⟨?_, hscan.2⟩
  unfold getNewTask
  have h0 : ds.length ≠ 0 := by omega
  simp only [h0, if_false]
  rw [hscan.1]
  have hne : ¬ ((j : Int) = -1) := by omega
  simp only [hne, if_false]

/-- Either no entry from the cursor on is Pending and `getNewTask` fails, or it
claims the first Pending entry from the cursor on. -/
theorem getNewTask_cases (ds : List Task) (c : Nat) :
    ((∀ m t, c ≤ m → ds[m]? = some t → t.State ≠ 0) ∧
      getNewTask ⟨ds, (c : Int)⟩ =
        (Reply.badRequest "Error: No non-started task.",
          ⟨ds, ((c + doneRun ds c : Nat) : Int)⟩)) ∨
    (∃ j, FirstPending ds c j ∧ c + doneRun ds c ≤ j ∧
      getNewTask ⟨ds, (c : Int)⟩ =
        (Reply.task ⟨(j : Int), 1⟩,
          ⟨ds.set j ⟨(j : Int), 1⟩, ((c + doneRun ds c : Nat) : Int)⟩)) := by
  by_cases h : ∃ m t, c ≤ m ∧ ds[m]? = some t ∧ t.State = 0
  · obtain ⟨j, hj⟩ := firstPending_exists ds c h
    have := getNewTask_found ds c j hj
    exact Or.inr ⟨j, hj, this.2, this.1⟩
  · have hnone : ∀ m t, c ≤ m → ds[m]? = some t → t.State ≠ 0 := by
      intro m t hm hget hs
      exact h ⟨m, t, hm, hget, hs⟩
    exact Or.inl ⟨hnone, getNewTask_none ds c hnone⟩

/-! ## Integer indices -/

theorem stateOf_natCast (ds : List Task) (m : Nat) (s : Int) :
    stateOf ds (m : Int) = some s ↔ ∃ t, ds[m]? = some t ∧ t.State = s := by
  simp [stateOf, index_natCast]

theorem stateOf_of_neg (ds : List Task) (i : Int) (h : i < 0) : stateOf ds i = none := by
  simp [stateOf, index_of_neg ds i h]

theorem index_set_ne (ds : List Task) (j : Nat) (t : Task) (k : Int) (h : k ≠ (j : Int)) :
    index (ds.set j t) k = index ds k := by
  by_cases hk : 0 ≤ k
  · obtain ⟨m, rfl⟩ := Int.eq_ofNat_of_zero_le hk
    rw [index_natCast, index_natCast]
    exact List.getElem?_set_ne (by omega)
  · rw [index_of_neg _ k (by omega), index_of_neg _ k (by omega)]

theorem index_set_self (ds : List Task) (j : Nat) (t : Task) (h : j < ds.length) :
    index (ds.set j t) (j : Int) = some t := by
  rw [index_natCast]
  exact List.getElem?_set_self h

theorem pending_int_iff (ds : List Task) (n : Nat) :
    (∃ i : Int, (n : Int) ≤ i ∧ stateOf ds i = some 0) ↔
      ∃ m t, n ≤ m ∧ ds[m]? = some t ∧ t.State = 0 := by
  constructor
  · rintro ⟨i, hi, hs⟩
    obtain ⟨m, rfl⟩ := Int.eq_ofNat_of_zero_le (by omega : 0 ≤ i)
    obtain ⟨t, ht, hts⟩ := (stateOf_natCast ds m 0).mp hs
    exact ⟨m, t, by omega, ht, hts⟩
  · rintro ⟨m, t, hm, ht, hts⟩
    exact ⟨(m : Int), by omega, (stateOf_natCast ds m 0).mpr ⟨t, ht, hts⟩⟩

theorem firstPending_int (ds : List Task) (n j : Nat) (h : FirstPending ds n j) :
    (n : Int) ≤ (j : Int) ∧ stateOf ds (j : Int) = some 0 ∧
      ∀ k : Int, (n : Int) ≤ k → k < (j : Int) → stateOf ds k ≠ some 0 := by
  obtain ⟨hnj, hj, hmin⟩ := h
  refine ⟨by omega, (stateOf_natCast ds j 0).mpr hj, ?_⟩
  intro k hk hkj hs
  obtain ⟨m, rfl⟩ := Int.eq_ofNat_of_zero_le (by omega : 0 ≤ k)
  obtain ⟨t, ht, hts⟩ := (stateOf_natCast ds m 0).mp hs
  exact hmin m t (by omega) (by omega) ht hts

/-! ## Slice access inside the bounds -/

theorem index_in_range (ds : List Task) (id : Int) (h0 : 0 ≤ id) (hlt : id < ds.length) :
    ∃ t, index ds id = some t := by
  obtain ⟨n, rfl⟩ := Int.eq_ofNat_of_zero_le h0
  have hn : n < ds.length := by exact_mod_cast hlt
  exact ⟨ds[n], by rw [index_natCast]; exact List.getElem?_eq_getElem hn⟩

/-- Inside the bounds a slice write succeeds, puts the new entry at its index
and keeps every other entry and the length. -/
theorem assign_in_range (ds : List Task) (id : Int) (t : Task) (h0 : 0 ≤ id)
    (hlt : id < ds.length) :
    ∃ ds1, assign ds id t = some ds1 ∧ index ds1 id = some t ∧
      (∀ j, j ≠ id → index ds1 j = index ds j) ∧ ds1.length = ds.length := by
  obtain ⟨n, rfl⟩ := Int.eq_ofNat_of_zero_le h0
  have hn : n < ds.length := by exact_mod_cast hlt
  refine ⟨ds.set n t, ?_, index_set_self ds n t hn, fun j hj => index_set_ne ds n t j hj,
    List.length_set ds n t⟩
  rw [assign_natCast, if_pos hn]

theorem assign_out_of_range (ds : List Task) (id : Int) (t : Task)
    (h : id < 0 ∨ (ds.length : Int) ≤ id) : assign ds id t = none := by
  unfold assign
  rw [if_neg]
  omega

theorem index_out_of_range (ds : List Task) (id : Int)
    (h : id < 0 ∨ (ds.length : Int) ≤ id) : index ds id = none := by
  rcases h with h | h
  · exact index_of_neg ds id h
  · exact index_of_ge ds id h

theorem stateOf_eq_some (ds : List Task) (id : Int) (s : Int) :
    stateOf ds id = some s ↔ ∃ t, index ds id = some t ∧ t.State = s := by
  simp [stateOf]

/-! ## The handlers inside the bounds -/

theorem finishTask_inProgress (ds : List Task) (c id : Int) (h0 : 0 ≤ id)
    (hlt : id < ds.length) (hs : stateOf ds id = some 1) :
    ∃ ds1, finishTask ⟨ds, c⟩ id = (Reply.success, ⟨ds1, c⟩) ∧
      index ds1 id = some ⟨id, 2⟩ ∧ (∀ j, j ≠ id → index ds1 j = index ds j) ∧
      ds1.length = ds.length := by
  obtain ⟨t, ht, hts⟩ := (stateOf_eq_some ds id 1).mp hs
  obtain ⟨ds1, h1, h2, h3, h4⟩ := assign_in_range ds id ⟨id, 2⟩ h0 hlt
  refine ⟨ds1, ?_, h2, h3, h4⟩
  simp only [finishTask, ht, hts, h1, if_true]

theorem finishTask_not_inProgress (ds : List Task) (c id : Int) (h0 : 0 ≤ id)
    (hlt : id < ds.length) (hs : stateOf ds id ≠ some 1) :
    finishTask ⟨ds, c⟩ id = (Reply.badRequest "Error: Wrong input", ⟨ds, c⟩) := by
  obtain ⟨t, ht⟩ := index_in_range ds id h0 hlt
  have hts : t.State ≠ 1 := fun h => hs ((stateOf_eq_some ds id 1).mpr ⟨t, ht, h⟩)
  simp only [finishTask, ht, hts, if_false]

theorem finishTask_outside (ds : List Task) (c id : Int)
    (h : id < 0 ∨ (ds.length : Int) ≤ id) :
    finishTask ⟨ds, c⟩ id = (Reply.panicked, ⟨ds, c⟩) := by
  simp only [finishTask, index_out_of_range ds id h]

theorem getByID_in_range (ds : List Task) (c id : Int) (t : Task) (hlt : id < ds.length)
    (ht : index ds id = some t) : getByID ⟨ds, c⟩ id = (Reply.task t, ⟨ds, c⟩) := by
  have hge : ¬ (id ≥ (ds.length : Int)) := by omega
  simp [getByID, hge, ht]

theorem leaseTimer_inProgress (ds : List Task) (c id : Int) (h0 : 0 ≤ id)
    (hlt : id < ds.length) (hs : stateOf ds id = some 1) :
    ∃ ds1, leaseTimer ⟨ds, c⟩ id = some ⟨ds1, c⟩ ∧
      index ds1 id = some ⟨id, 0⟩ ∧ (∀ j, j ≠ id → index ds1 j = index ds j) ∧
      ds1.length = ds.length := by
  obtain ⟨t, ht, hts⟩ := (stateOf_eq_some ds id 1).mp hs
  obtain ⟨ds1, h1, h2, h3, h4⟩ := assign_in_range ds id ⟨id, 0⟩ h0 hlt
  refine ⟨ds1, ?_, h2, h3, h4⟩
  simp only [leaseTimer, ht, hts, h1, if_true]

theorem leaseTimer_not_inProgress (ds : List Task) (c id : Int) (h0 : 0 ≤ id)
    (hlt : id < ds.length) (hs : stateOf ds id ≠ some 1) :
    leaseTimer ⟨ds, c⟩ id = some ⟨ds, c⟩ := by
  obtain ⟨t, ht⟩ := index_in_range ds id h0 hlt
  have hts : t.State ≠ 1 := fun h => hs ((stateOf_eq_some ds id 1).mpr ⟨t, ht, h⟩)
  simp only [leaseTimer, ht, hts, if_false]

theorem leaseTimer_out_of_range (ds : List Task) (c id : Int)
    (h : id < 0 ∨ (ds.length : Int) ≤ id) : leaseTimer ⟨ds, c⟩ id = none := by
  simp only [leaseTimer, index_out_of_range ds id h]

theorem stateOf_of_index (ds : List Task) (id : Int) (t : Task) (h : index ds id = some t) :
    stateOf ds id = some t.State := by
  simp [stateOf, h]

theorem newTask_out_of_range (db : DB) : newTask db = (Reply.panicked, db) := by
  simp only [newTask, assign_out_of_range db.datastore _ _ (Or.inr (Int.le_refl _))]

/-! ## The cursor under the other operations -/

theorem finishTask_cursor (db : DB) (id : Int) :
    (finishTask db id).2.oldestNotFinishedTask = db.oldestNotFinishedTask := by
  simp only [finishTask]
  split
  · rfl
  · split
    · split <;> rfl
    · rfl

theorem leaseTimer_cursor (db db1 : DB) (id : Int) (h : leaseTimer db id = some db1) :
    db1.oldestNotFinishedTask = db.oldestNotFinishedTask := by
  unfold leaseTimer at h
  split at h
  · cases h
  · split at h
    · split at h
      · cases h
      · cases h
        rfl
    · cases h
      rfl

theorem setByID_cursor (db : DB) (t : Task) :
    (setByID db t).2.oldestNotFinishedTask = db.oldestNotFinishedTask := by
  unfold setByID
  split
  · rfl
  · split <;> rfl

theorem scan_negative (ds : List Task) (c : Int) (tts : Task) (hc : c < 0) :
    scan ds c tts c = none := by
  rw [scan]
  have hlt : c < (ds.length : Int) := by omega
  simp only [hlt, if_true, index_of_neg ds c hc]

theorem getNewTask_negative (ds : List Task) (c : Int) (hc : c < 0) :
    (getNewTask ⟨ds, c⟩).2 = ⟨ds, c⟩ := by
  unfold getNewTask
  by_cases h0 : ds.length = 0
  · simp only [h0, if_true]
  · simp only [h0, if_false, scan_negative ds c _ hc]

/-! ## The cursor invariant -/

theorem stateOf_natCast_done (ds : List Task) (m : Nat) (hm : m < ds.length)
    (h : ∀ t, ds[m]? = some t → t.State = 2) : stateOf ds (m : Int) = some 2 :=
  (stateOf_natCast ds m 2).mpr ⟨ds[m], List.getElem?_eq_getElem hm,
    h _ (List.getElem?_eq_getElem hm)⟩

theorem stateOf_set_ne (ds : List Task) (j : Nat) (t : Task) (k : Int) (h : k ≠ (j : Int)) :
    stateOf (ds.set j t) k = stateOf ds k := by
  unfold stateOf
  rw [index_set_ne ds j t k h]

theorem getNewTask_preserves (db : DB) (hinv : CursorInv db) : CursorInv (getNewTask db).2 := by
  obtain ⟨ds, c⟩ := db
  by_cases h0 : 0 ≤ c
  · obtain ⟨n, rfl⟩ := Int.eq_ofNat_of_zero_le h0
    obtain ⟨hle, hdone⟩ := hinv
    have hle2 : (n : Int) ≤ (ds.length : Int) := hle
    have hn : n ≤ ds.length := by exact_mod_cast hle2
    have hb := doneRun_bound ds _ n rfl hn
    have hbelow : ∀ j : Int, 0 ≤ j → j < ((n + doneRun ds n : Nat) : Int) →
        stateOf ds j = some 2 := by
      intro j hj0 hj
      by_cases hjn : j < (n : Int)
      · exact hdone j hj0 hjn
      · obtain ⟨m, rfl⟩ := Int.eq_ofNat_of_zero_le hj0
        have hm : m < n + doneRun ds n := by exact_mod_cast hj
        exact stateOf_natCast_done ds m (by omega)
          (fun t ht => doneRun_all_done ds _ n rfl m t (by omega) hm ht)
    rcases getNewTask_cases ds n with ⟨_, hres⟩ | ⟨j, _, hj, hres⟩
    · rw [hres]
      exact ⟨by show ((n + doneRun ds n : Nat) : Int) ≤ (ds.length : Int); exact_mod_cast hb,
        hbelow⟩
    · rw [hres]
      refine ⟨?_, ?_⟩
      · show ((n + doneRun ds n : Nat) : Int) ≤ ((ds.set j _).length : Int)
        rw [List.length_set]
        exact_mod_cast hb
      · intro k hk0 hk
        have hk2 : k < ((n + doneRun ds n : Nat) : Int) := hk
        show stateOf (ds.set j _) k = some 2
        rw [stateOf_set_ne ds j _ k (by omega)]
        exact hbelow k hk0 hk2
  · rw [getNewTask_negative ds c (by omega)]
    exact hinv

theorem finishTask_preserves (db : DB) (id : Int) (hinv : CursorInv db) :
    CursorInv (finishTask db id).2 := by
  obtain ⟨ds, c⟩ := db
  by_cases hr : 0 ≤ id ∧ id < (ds.length : Int)
  · by_cases hs : stateOf ds id = some 1
    · obtain ⟨ds1, h1, h2, h3, h4⟩ := finishTask_inProgress ds c id hr.1 hr.2 hs
      rw [h1]
      refine ⟨by show c ≤ (ds1.length : Int); rw [h4]; exact hinv.1, ?_⟩
      intro j hj0 hj
      show stateOf ds1 j = some 2
      by_cases hji : j = id
      · rw [hji, stateOf_of_index ds1 id _ h2]
      · unfold stateOf
        rw [h3 j hji]
        exact hinv.2 j hj0 hj
    · rw [finishTask_not_inProgress ds c id hr.1 hr.2 hs]
      exact hinv
  · rw [finishTask_outside ds c id (by omega)]
    exact hinv

theorem leaseTimer_preserves (db : DB) (id : Int) (hinv : CursorInv db) :
    CursorInv ((leaseTimer db id).getD db) := by
  obtain ⟨ds, c⟩ := db
  by_cases hr : 0 ≤ id ∧ id < (ds.length : Int)
  · by_cases hs : stateOf ds id = some 1
    · obtain ⟨ds1, h1, _, h3, h4⟩ := leaseTimer_inProgress ds c id hr.1 hr.2 hs
      rw [h1]
      refine ⟨by show c ≤ (ds1.length : Int); rw [h4]; exact hinv.1, ?_⟩
      intro j hj0 hj
      show stateOf ds1 j = some 2
      have hji : j ≠ id := by
        intro hji
        have := hinv.2 j hj0 hj
        rw [hji, hs] at this
        cases this
      unfold stateOf
      rw [h3 j hji]
      exact hinv.2 j hj0 hj
    · rw [leaseTimer_not_inProgress ds c id hr.1 hr.2 hs]
      exact hinv
  · rw [leaseTimer_out_of_range ds c id (by omega)]
    exact hinv

theorem getByID_state (db : DB) (id : Int) : (getByID db id).2 = db := by
  simp only [getByID]
  split
  · rfl
  · split <;> rfl

theorem step_preserves (db : DB) (op : Op) (hinv : CursorInv db) : CursorInv (step db op) := by
  cases op with
  | fetch => exact getNewTask_preserves db hinv
  | finish id => exact finishTask_preserves db id hinv
  | timer id => exact leaseTimer_preserves db id hinv
  | create =>
    show CursorInv (newTask db).2
    rw [newTask_out_of_range]
    exact hinv
  | get id =>
    show CursorInv (getByID db id).2
    rw [getByID_state]
    exact hinv

theorem run_preserves (ops : List Op) : ∀ db, CursorInv db → CursorInv (run db ops) := by
  induction ops with
  | nil => exact fun _ h => h
  | cons op ops ih => exact fun db h => ih (step db op) (step_preserves db op h)

/-! ## Counting the Pending entries from the cursor on -/

theorem pendingFrom_of_ge (ds : List Task) (c : Nat) (h : ds.length ≤ c) :
    pendingFrom ds c = 0 := by
  simp [pendingFrom, List.drop_eq_nil_of_le h]

theorem pendingFrom_step (ds : List Task) (c : Nat) (t : Task) (hget : ds[c]? = some t) :
    pendingFrom ds c = pendingFrom ds (c + 1) + if t.State = 0 then 1 else 0 := by
  obtain ⟨hlt, rfl⟩ := List.getElem?_eq_some.mp hget
  unfold pendingFrom
  rw [List.drop_eq_getElem_cons hlt, List.countP_cons]
  simp

theorem pendingFrom_skip (ds : List Task) :
    ∀ (r c : Nat), (∀ m t, c ≤ m → m < c + r → ds[m]? = some t → t.State ≠ 0) →
      pendingFrom ds c = pendingFrom ds (c + r) := by
  intro r
  induction r with
  | zero => exact fun _ _ => rfl
  | succ r ih =>
    intro c hnone
    by_cases hlt : c < ds.length
    · have hget : ds[c]? = some ds[c] := List.getElem?_eq_getElem hlt
      rw [pendingFrom_step ds c _ hget, if_neg (hnone c _ (Nat.le_refl c) (by omega) hget),
        ih (c + 1) (fun m t hm hmr => hnone m t (by omega) (by omega))]
      have h2 : c + 1 + r = c + (r + 1) := by omega
      rw [h2, Nat.add_zero]
    · rw [pendingFrom_of_ge ds c (by omega), pendingFrom_of_ge ds (c + (r + 1)) (by omega)]

theorem pendingFrom_of_none (ds : List Task) (c : Nat)
    (hnone : ∀ m t, c ≤ m → ds[m]? = some t → t.State ≠ 0) : pendingFrom ds c = 0 := by
  rw [pendingFrom_skip ds (ds.length - c) c (fun m t hm _ => hnone m t hm)]
  exact pendingFrom_of_ge ds _ (by omega)

/-- Claiming the Pending entry `j` lowers the count from any `c ≤ j` by one. -/
theorem pendingFrom_set (ds : List Task) (j : Nat) (tj t1 : Task) (hj : ds[j]? = some tj)
    (hjs : tj.State = 0) (h1 : t1.State ≠ 0) :
    ∀ (d c : Nat), j - c = d → c ≤ j →
      pendingFrom ds c = pendingFrom (ds.set j t1) c + 1 := by
  have hjlt : j < ds.length := (List.getElem?_eq_some.mp hj).1
  intro d
  induction d with
  | zero =>
    intro c hd hcj
    have : c = j := by omega
    subst this
    have hset : (ds.set c t1)[c]? = some t1 := List.getElem?_set_self hjlt
    rw [pendingFrom_step ds c tj hj, pendingFrom_step (ds.set c t1) c t1 hset, if_pos hjs,
      if_neg h1]
    unfold pendingFrom
    rw [List.drop_set_of_lt t1 ds (Nat.lt_succ_self c)]
  | succ d ih =>
    intro c hd hcj
    have hlt : c < ds.length := by omega
    have hget : ds[c]? = some ds[c] := List.getElem?_eq_getElem hlt
    have hset : (ds.set j t1)[c]? = some ds[c] := by
      rw [List.getElem?_set_ne (by omega)]
      exact hget
    rw [pendingFrom_step ds c _ hget, pendingFrom_step (ds.set j t1) c _ hset,
      ih (c + 1) (by omega) (by omega)]
    omega

/-! ## Successive calls of `getNewTask` -/

/-- With at least `N` Pending entries from the cursor on, `N` successive calls
claim `N` pairwise distinct entries that were Pending, leave each of them
InProgress and leave every entry that was not Pending as it was. -/
theorem fetchN_claims :
    ∀ (N : Nat) (ds : List Task) (c : Nat), N ≤ pendingFrom ds c →
      ∃ (ids : List Nat) (final : List Task) (c1 : Nat),
        fetchN N ⟨ds, (c : Int)⟩ =
            (ids.map (fun (i : Nat) => Reply.task ⟨(i : Int), 1⟩), ⟨final, (c1 : Int)⟩) ∧
          ids.length = N ∧ ids.Nodup ∧ final.length = ds.length ∧
          (∀ i ∈ ids, ∃ t, ds[i]? = some t ∧ t.State = 0) ∧
          (∀ i ∈ ids, final[i]? = some ⟨(i : Int), 1⟩) ∧
          (∀ (m : Nat) (t : Task), ds[m]? = some t → t.State ≠ 0 → final[m]? = some t) := by
  intro N
  induction N with
  | zero =>
    intro ds c _
    exact ⟨[], ds, c, rfl, rfl, List.nodup_nil, rfl, by simp, by simp, fun _ _ h _ => h⟩
  | succ N ih =>
    intro ds c hN
    rcases getNewTask_cases ds c with ⟨hnone, _⟩ | ⟨j, hfp, hcj, hres⟩
    · rw [pendingFrom_of_none ds c hnone] at hN
      omega
    · obtain ⟨hcj0, ⟨tj, hj, hjs⟩, hmin⟩ := hfp
      have hjlt : j < ds.length := (List.getElem?_eq_some.mp hj).1
      have hcount : pendingFrom ds c =
          pendingFrom (ds.set j ⟨(j : Int), 1⟩) (c + doneRun ds c) + 1 := by
        rw [pendingFrom_skip ds (doneRun ds c) c
          (fun m t hm hmr hget => hmin m t hm (by omega) hget)]
        exact pendingFrom_set ds j tj _ hj hjs (by simp) _ _ rfl hcj
      obtain ⟨ids, final, c1, hrun, hlen, hnd, hflen, hpend, hfin, hkeep⟩ :=
        ih (ds.set j ⟨(j : Int), 1⟩) (c + doneRun ds c) (by omega)
      have hsetj : (ds.set j ⟨(j : Int), 1⟩)[j]? = some ⟨(j : Int), 1⟩ :=
        List.getElem?_set_self hjlt
      have hnotin : j ∉ ids := by
        intro hmem
        obtain ⟨t, ht, hts⟩ := hpend j hmem
        rw [hsetj] at ht
        cases ht
        simp at hts
      refine ⟨j :: ids, final, c1, ?_, by simp [hlen], List.nodup_cons.mpr ⟨hnotin, hnd⟩,
        by rw [hflen, List.length_set], ?_, ?_, ?_⟩
      · show ((getNewTask ⟨ds, (c : Int)⟩).1 :: (fetchN N (getNewTask ⟨ds, (c : Int)⟩).2).1,
          (fetchN N (getNewTask ⟨ds, (c : Int)⟩).2).2) = _
        rw [hres]
        show (_ :: (fetchN N ⟨ds.set j _, _⟩).1, (fetchN N ⟨ds.set j _, _⟩).2) = _
        rw [hrun]
        rfl
      · intro i hi
        rcases List.mem_cons.mp hi with rfl | hi
        · exact ⟨tj, hj, hjs⟩
        · obtain ⟨t, ht, hts⟩ := hpend i hi
          have hij : j ≠ i := fun h => hnotin (h ▸ hi)
          rw [List.getElem?_set_ne hij] at ht
          exact ⟨t, ht, hts⟩
      · intro i hi
        rcases List.mem_cons.mp hi with rfl | hi
        · exact hkeep i _ hsetj (by simp)
        · exact hfin i hi
      · intro m t hget hts
        have hjm : j ≠ m := by
          intro h
          subst h
          rw [hj] at hget
          cases hget
          exact hts hjs
        apply hkeep m t _ hts
        rw [List.getElem?_set_ne hjm]
        exact hget

/-! ## A Pending entry behind the cursor -/

/-- With the cursor at 1, the Pending entry at index 0 is not found. -/
theorem getNewTask_stranded :
    getNewTask ⟨[⟨0, 0⟩], 1⟩ =
      (Reply.badRequest "Error: No non-started task.", ⟨[⟨0, 0⟩], 1⟩) := by
  have h := getNewTask_none [⟨0, 0⟩] 1 (by
    intro m t hm hget
    have hlen := (List.getElem?_eq_some.mp hget).1
    simp at hlen
    omega)
  rw [doneRun_of_ge _ 1 (by simp)] at h
  exact h

theorem cursorInv_done_head : CursorInv ⟨[⟨0, 2⟩], 1⟩ := by
  refine ⟨by decide, ?_⟩
  intro j hj0 hj
  have hj1 : j < 1 := hj
  obtain rfl : j = 0 := by omega
  rfl

theorem not_cursorInv_stranded : ¬ CursorInv ⟨[⟨0, 0⟩], 1⟩ := by
  intro h
  have := h.2 0 (by decide) (by decide)
  revert this
  decide

/-! ## Claims -/

/-- C1: for every store and every cursor `c` with `0 ≤ c ≤ length`, `getNewTask`
answers with a task exactly when some entry at an index `≥ c` is Pending (0);
it then answers with `{i, 1}` for the smallest such index `i`, the stored entry
at `i` becomes `{i, 1}` and every other entry is unchanged; otherwise it answers
with the no-available-task error and the slice is unchanged. -/
theorem getNewTask_claims_lowest_pending (ds : List Task) (c : Int) (h0 : 0 ≤ c)
    (_hc : c ≤ ds.length) :
    ((∃ t, (getNewTask ⟨ds, c⟩).1 = Reply.task t) ↔ ∃ i : Int, c ≤ i ∧ stateOf ds i = some 0) ∧
    ((∃ i : Int, c ≤ i ∧ stateOf ds i = some 0) →
      ∃ (i : Int) (db : DB), c ≤ i ∧ stateOf ds i = some 0 ∧
        (∀ j : Int, c ≤ j → j < i → stateOf ds j ≠ some 0) ∧
        getNewTask ⟨ds, c⟩ = (Reply.task ⟨i, 1⟩, db) ∧
        index db.datastore i = some ⟨i, 1⟩ ∧
        (∀ j : Int, j ≠ i → index db.datastore j = index ds j) ∧
        db.datastore.length = ds.length) ∧
    ((¬ ∃ i : Int, c ≤ i ∧ stateOf ds i = some 0) →
      ∃ db, getNewTask ⟨ds, c⟩ = (Reply.badRequest "Error: No non-started task.", db) ∧
        db.datastore = ds) := by
  obtain ⟨n, rfl⟩ := Int.eq_ofNat_of_zero_le h0
  rcases getNewTask_cases ds n with ⟨hnone, hres⟩ | ⟨j, hfp, _, hres⟩
  · have hno : ¬ ∃ i : Int, (n : Int) ≤ i ∧ stateOf ds i = some 0 := by
      rw [pending_int_iff]
      rintro ⟨m, t, hm, ht, hts⟩
      exact hnone m t hm ht hts
    refine ⟨?_, fun h => absurd h hno, fun _ => ⟨_, hres, rfl⟩⟩
    constructor
    · rintro ⟨t, ht⟩
      rw [hres] at ht
      cases ht
    · exact fun h => absurd h hno
  · have hjlt : j < ds.length := by
      obtain ⟨_, ⟨t, ht, _⟩, _⟩ := hfp
      exact (List.getElem?_eq_some.mp ht).1
    obtain ⟨hnj, hjs, hmin⟩ := firstPending_int ds n j hfp
    have hyes : ∃ i : Int, (n : Int) ≤ i ∧ stateOf ds i = some 0 := ⟨j, hnj, hjs⟩
    refine ⟨⟨fun _ => hyes, fun _ => ⟨_, by rw [hres]⟩⟩, fun _ => ?_, fun h => absurd hyes h⟩
    exact ⟨(j : Int), _, hnj, hjs, hmin, hres, index_set_self ds j _ hjlt,
      fun k hk => index_set_ne ds j _ k hk, List.length_set ds j _⟩

/-- C1 at the store `[Done, InProgress, Pending]` with the cursor at 0. -/
theorem getNewTask_claims_lowest_pending_witness :
    (0 : Int) ≤ 0 ∧ (0 : Int) ≤ ([(⟨0, 2⟩ : Task), ⟨1, 1⟩, ⟨2, 0⟩].length : Int) ∧
    ((∃ t, (getNewTask ⟨[⟨0, 2⟩, ⟨1, 1⟩, ⟨2, 0⟩], 0⟩).1 = Reply.task t) ↔
      ∃ i : Int, (0 : Int) ≤ i ∧ stateOf [⟨0, 2⟩, ⟨1, 1⟩, ⟨2, 0⟩] i = some 0) ∧
    ((∃ i : Int, (0 : Int) ≤ i ∧ stateOf [⟨0, 2⟩, ⟨1, 1⟩, ⟨2, 0⟩] i = some 0) →
      ∃ (i : Int) (db : DB), (0 : Int) ≤ i ∧ stateOf [⟨0, 2⟩, ⟨1, 1⟩, ⟨2, 0⟩] i = some 0 ∧
        (∀ j : Int, (0 : Int) ≤ j → j < i → stateOf [⟨0, 2⟩, ⟨1, 1⟩, ⟨2, 0⟩] j ≠ some 0) ∧
        getNewTask ⟨[⟨0, 2⟩, ⟨1, 1⟩, ⟨2, 0⟩], 0⟩ = (Reply.task ⟨i, 1⟩, db) ∧
        index db.datastore i = some ⟨i, 1⟩ ∧
        (∀ j : Int, j ≠ i → index db.datastore j = index [⟨0, 2⟩, ⟨1, 1⟩, ⟨2, 0⟩] j) ∧
        db.datastore.length = [(⟨0, 2⟩ : Task), ⟨1, 1⟩, ⟨2, 0⟩].length) ∧
    ((¬ ∃ i : Int, (0 : Int) ≤ i ∧ stateOf [⟨0, 2⟩, ⟨1, 1⟩, ⟨2, 0⟩] i = some 0) →
      ∃ db, getNewTask ⟨[⟨0, 2⟩, ⟨1, 1⟩, ⟨2, 0⟩], 0⟩ =
          (Reply.badRequest "Error: No non-started task.", db) ∧
        db.datastore = [⟨0, 2⟩, ⟨1, 1⟩, ⟨2, 0⟩]) :=
  ⟨by decide, by decide,
    getNewTask_claims_lowest_pending [⟨0, 2⟩, ⟨1, 1⟩, ⟨2, 0⟩] 0 (by decide) (by decide)⟩

/-- C2: `newTask` never appends.  It writes the new task `{n, 0}` at index
`n = len(datastore)` of the slice, which is out of range for every store, so the
handler ends in the runtime error and the store keeps its `n` entries. -/
theorem newTask_always_panics (db : DB) : newTask db = (Reply.panicked, db) :=
  newTask_out_of_range db

/-- C3: for `0 ≤ id < length`, `finishTask` succeeds exactly when the entry at
`id` is InProgress (1); on success the entry becomes `{id, 2}`, every other
entry is unchanged, a following `getByID` reports `{id, 2}` and a second
`finishTask` fails with the conflict error; on failure the state is unchanged. -/
theorem finishTask_in_range (ds : List Task) (c id : Int) (h0 : 0 ≤ id)
    (hlt : id < ds.length) :
    ((finishTask ⟨ds, c⟩ id).1 = Reply.success ↔ stateOf ds id = some 1) ∧
    (stateOf ds id = some 1 →
      ∃ db, finishTask ⟨ds, c⟩ id = (Reply.success, db) ∧
        index db.datastore id = some ⟨id, 2⟩ ∧
        (∀ j : Int, j ≠ id → index db.datastore j = index ds j) ∧
        db.datastore.length = ds.length ∧
        getByID db id = (Reply.task ⟨id, 2⟩, db) ∧
        finishTask db id = (Reply.badRequest "Error: Wrong input", db)) ∧
    (stateOf ds id ≠ some 1 →
      finishTask ⟨ds, c⟩ id = (Reply.badRequest "Error: Wrong input", ⟨ds, c⟩)) := by
  have hyes : stateOf ds id = some 1 →
      ∃ db, finishTask ⟨ds, c⟩ id = (Reply.success, db) ∧
        index db.datastore id = some ⟨id, 2⟩ ∧
        (∀ j : Int, j ≠ id → index db.datastore j = index ds j) ∧
        db.datastore.length = ds.length ∧
        getByID db id = (Reply.task ⟨id, 2⟩, db) ∧
        finishTask db id = (Reply.badRequest "Error: Wrong input", db) := by
    intro hs
    obtain ⟨ds1, h1, h2, h3, h4⟩ := finishTask_inProgress ds c id h0 hlt hs
    have hlt1 : id < (ds1.length : Int) := by rw [h4]; exact hlt
    refine ⟨⟨ds1, c⟩, h1, h2, h3, h4, getByID_in_range ds1 c id _ hlt1 h2, ?_⟩
    apply finishTask_not_inProgress ds1 c id h0 hlt1
    rw [stateOf_of_index ds1 id _ h2]
    simp
  refine ⟨⟨?_, ?_⟩, hyes, finishTask_not_inProgress ds c id h0 hlt⟩
  · intro hsucc
    by_contra hs
    rw [finishTask_not_inProgress ds c id h0 hlt hs] at hsucc
    cases hsucc
  · intro hs
    obtain ⟨db, hdb, _⟩ := hyes hs
    rw [hdb]

/-- C3 at the store `[InProgress]` and `id = 0`. -/
theorem finishTask_in_range_witness :
    (0 : Int) ≤ 0 ∧ (0 : Int) < ([(⟨0, 1⟩ : Task)].length : Int) ∧
    ((finishTask ⟨[⟨0, 1⟩], 0⟩ 0).1 = Reply.success ↔ stateOf [⟨0, 1⟩] 0 = some 1) ∧
    (stateOf [⟨0, 1⟩] 0 = some 1 →
      ∃ db, finishTask ⟨[⟨0, 1⟩], 0⟩ 0 = (Reply.success, db) ∧
        index db.datastore 0 = some ⟨0, 2⟩ ∧
        (∀ j : Int, j ≠ 0 → index db.datastore j = index [⟨0, 1⟩] j) ∧
        db.datastore.length = [(⟨0, 1⟩ : Task)].length ∧
        getByID db 0 = (Reply.task ⟨0, 2⟩, db) ∧
        finishTask db 0 = (Reply.badRequest "Error: Wrong input", db)) ∧
    (stateOf [⟨0, 1⟩] 0 ≠ some 1 →
      finishTask ⟨[⟨0, 1⟩], 0⟩ 0 = (Reply.badRequest "Error: Wrong input", ⟨[⟨0, 1⟩], 0⟩)) :=
  ⟨by decide, by decide, finishTask_in_range [⟨0, 1⟩] 0 0 (by decide) (by decide)⟩

/-- C5: for the id of a task in the store, the lease timer replaces an
InProgress entry by `{id, 0}` and otherwise leaves the state as it is; after a
successful `finishTask` the timer leaves `{id, 2}` in place, after the timer a
`finishTask` fails with the conflict error, and the timer changes no entry
other than `id`. -/
theorem leaseTimer_reverts_only_inProgress (ds : List Task) (c id : Int) (h0 : 0 ≤ id)
    (hlt : id < ds.length) :
    (stateOf ds id = some 1 →
      ∃ db, leaseTimer ⟨ds, c⟩ id = some db ∧ index db.datastore id = some ⟨id, 0⟩ ∧
        (∀ j : Int, j ≠ id → index db.datastore j = index ds j) ∧
        db.datastore.length = ds.length) ∧
    (stateOf ds id ≠ some 1 → leaseTimer ⟨ds, c⟩ id = some ⟨ds, c⟩) ∧
    (∀ db, finishTask ⟨ds, c⟩ id = (Reply.success, db) →
      leaseTimer db id = some db ∧ index db.datastore id = some ⟨id, 2⟩) ∧
    (∀ db, leaseTimer ⟨ds, c⟩ id = some db →
      finishTask db id = (Reply.badRequest "Error: Wrong input", db)) ∧
    (∃ db, leaseTimer ⟨ds, c⟩ id = some db ∧
      ∀ j : Int, j ≠ id → index db.datastore j = index ds j) := by
  refine ⟨?_, leaseTimer_not_inProgress ds c id h0 hlt, ?_, ?_, ?_⟩
  · intro hs
    obtain ⟨ds1, h1, h2, h3, h4⟩ := leaseTimer_inProgress ds c id h0 hlt hs
    exact ⟨⟨ds1, c⟩, h1, h2, h3, h4⟩
  · intro db hfin
    by_cases hs : stateOf ds id = some 1
    · obtain ⟨ds1, h1, h2, _, h4⟩ := finishTask_inProgress ds c id h0 hlt hs
      rw [h1] at hfin
      cases hfin
      have hlt1 : id < (ds1.length : Int) := by rw [h4]; exact hlt
      refine ⟨leaseTimer_not_inProgress ds1 c id h0 hlt1 ?_, h2⟩
      rw [stateOf_of_index ds1 id _ h2]
      simp
    · rw [finishTask_not_inProgress ds c id h0 hlt hs] at hfin
      cases hfin
  · intro db htimer
    by_cases hs : stateOf ds id = some 1
    · obtain ⟨ds1, h1, h2, _, h4⟩ := leaseTimer_inProgress ds c id h0 hlt hs
      rw [h1] at htimer
      cases htimer
      have hlt1 : id < (ds1.length : Int) := by rw [h4]; exact hlt
      apply finishTask_not_inProgress ds1 c id h0 hlt1
      rw [stateOf_of_index ds1 id _ h2]
      simp
    · rw [leaseTimer_not_inProgress ds c id h0 hlt hs] at htimer
      cases htimer
      exact finishTask_not_inProgress ds c id h0 hlt hs
  · by_cases hs : stateOf ds id = some 1
    · obtain ⟨ds1, h1, _, h3, _⟩ := leaseTimer_inProgress ds c id h0 hlt hs
      exact ⟨⟨ds1, c⟩, h1, h3⟩
    · exact ⟨⟨ds, c⟩, leaseTimer_not_inProgress ds c id h0 hlt hs, fun _ _ => rfl⟩

/-- C5 at the store `[Done, InProgress]` and `id = 1`. -/
theorem leaseTimer_reverts_only_inProgress_witness :
    (0 : Int) ≤ 1 ∧ (1 : Int) < ([(⟨0, 2⟩ : Task), ⟨1, 1⟩].length : Int) ∧
    (stateOf [⟨0, 2⟩, ⟨1, 1⟩] 1 = some 1 →
      ∃ db, leaseTimer ⟨[⟨0, 2⟩, ⟨1, 1⟩], 1⟩ 1 = some db ∧
        index db.datastore 1 = some ⟨1, 0⟩ ∧
        (∀ j : Int, j ≠ 1 → index db.datastore j = index [⟨0, 2⟩, ⟨1, 1⟩] j) ∧
        db.datastore.length = [(⟨0, 2⟩ : Task), ⟨1, 1⟩].length) ∧
    (stateOf [⟨0, 2⟩, ⟨1, 1⟩] 1 ≠ some 1 →
      leaseTimer ⟨[⟨0, 2⟩, ⟨1, 1⟩], 1⟩ 1 = some ⟨[⟨0, 2⟩, ⟨1, 1⟩], 1⟩) ∧
    (∀ db, finishTask ⟨[⟨0, 2⟩, ⟨1, 1⟩], 1⟩ 1 = (Reply.success, db) →
      leaseTimer db 1 = some db ∧ index db.datastore 1 = some ⟨1, 2⟩) ∧
    (∀ db, leaseTimer ⟨[⟨0, 2⟩, ⟨1, 1⟩], 1⟩ 1 = some db →
      finishTask db 1 = (Reply.badRequest "Error: Wrong input", db)) ∧
    (∃ db, leaseTimer ⟨[⟨0, 2⟩, ⟨1, 1⟩], 1⟩ 1 = some db ∧
      ∀ j : Int, j ≠ 1 → index db.datastore j = index [⟨0, 2⟩, ⟨1, 1⟩] j) :=
  ⟨by decide, by decide,
    leaseTimer_reverts_only_inProgress [⟨0, 2⟩, ⟨1, 1⟩] 1 1 (by decide) (by decide)⟩

/-- C6: for every negative `id` (`-1`, `-2`, ...) with a valid state (0, 1 or 2)
`setByID` passes its check, which bounds `ID` only from above by
`len(datastore)`, and writes the slice out of range: it ends in the runtime
error instead of an error reply or `success`, on every store. -/
theorem setByID_negative_id_panics (db : DB) (n : Nat) :
    setByID db ⟨Int.negSucc n, 0⟩ = (Reply.panicked, db) ∧
    setByID db ⟨Int.negSucc n, 1⟩ = (Reply.panicked, db) ∧
    setByID db ⟨Int.negSucc n, 2⟩ = (Reply.panicked, db) := by
  have hneg : Int.negSucc n < 0 := Int.negSucc_lt_zero n
  have hge : ¬ (Int.negSucc n ≥ (db.datastore.length : Int)) := by omega
  refine ⟨?_, ?_, ?_⟩ <;>
    simp [setByID, hge, assign_out_of_range db.datastore _ _ (Or.inl hneg)]

/-- Inside the bounds `setByID` behaves as an overwrite: it fails with the
wrong-input error and leaves the state unchanged if `id ≥ length` or `state` is
not one of 0, 1, 2; for every `id` with `0 ≤ id < length` and `state` one of
0, 1, 2 it succeeds, replaces the entry at `id` by exactly `{id, state}`, leaves
all other entries unchanged, and a following `getByID` returns `{id, state}`. -/
theorem setByID_overwrites (ds : List Task) (c id state : Int) :
    (id ≥ ds.length ∨ (state ≠ 0 ∧ state ≠ 1 ∧ state ≠ 2) →
      setByID ⟨ds, c⟩ ⟨id, state⟩ = (Reply.badRequest "Error: Wrong input", ⟨ds, c⟩)) ∧
    (0 ≤ id → id < ds.length → (state = 0 ∨ state = 1 ∨ state = 2) →
      ∃ db, setByID ⟨ds, c⟩ ⟨id, state⟩ = (Reply.success, db) ∧
        index db.datastore id = some ⟨id, state⟩ ∧
        (∀ j : Int, j ≠ id → index db.datastore j = index ds j) ∧
        db.datastore.length = ds.length ∧
        getByID db id = (Reply.task ⟨id, state⟩, db)) := by
  constructor
  · intro h
    have hcond : id ≥ (ds.length : Int) ∨ state > 2 ∨ state < 0 := by omega
    simp only [setByID, hcond, if_true]
  · intro h0 hlt hstate
    have hcond : ¬ (id ≥ (ds.length : Int) ∨ state > 2 ∨ state < 0) := by omega
    obtain ⟨ds1, h1, h2, h3, h4⟩ := assign_in_range ds id ⟨id, state⟩ h0 hlt
    have hlt1 : id < (ds1.length : Int) := by rw [h4]; exact hlt
    refine ⟨⟨ds1, c⟩, ?_, h2, h3, h4, getByID_in_range ds1 c id _ hlt1 h2⟩
    simp only [setByID, hcond, if_false, h1]

/-- C7: for every negative `id` (`-1`, `-2`, ...) `getByID` passes its only
check `id >= len(datastore)` and reads the slice out of range: it ends in the
runtime error instead of an error reply. -/
theorem getByID_negative_id_panics (db : DB) (n : Nat) :
    getByID db (Int.negSucc n) = (Reply.panicked, db) := by
  have hneg : Int.negSucc n < 0 := Int.negSucc_lt_zero n
  have hge : ¬ (Int.negSucc n ≥ (db.datastore.length : Int)) := by omega
  simp [getByID, hge, index_of_neg db.datastore _ hneg]

/-- C8: `finishTask` reads `datastore[id]` without any check: for every negative
`id` and every `id ≥ length` it ends in the runtime error instead of an error
reply. -/
theorem finishTask_out_of_range_panics (db : DB) (n : Nat) :
    finishTask db (Int.negSucc n) = (Reply.panicked, db) ∧
    finishTask db ((db.datastore.length : Int) + (n : Int)) = (Reply.panicked, db) := by
  have hneg : Int.negSucc n < 0 := Int.negSucc_lt_zero n
  exact ⟨finishTask_outside db.datastore db.oldestNotFinishedTask _ (Or.inl hneg),
    finishTask_outside db.datastore db.oldestNotFinishedTask _ (Or.inr (by omega))⟩

/-- C4, as the claim states it, fails: the store `[Pending]` with the cursor at
1 has one Pending entry and `0 ≤ cursor ≤ length`, and the single call of
`getNewTask` fails, because the Pending entry lies behind the cursor. -/
theorem fetchN_pending_behind_cursor_counterexample :
    (0 : Int) ≤ 1 ∧ (1 : Int) ≤ (([⟨0, 0⟩] : List Task).length : Int) ∧
    1 ≤ pendingFrom [⟨0, 0⟩] 0 ∧
    fetchN 1 ⟨[⟨0, 0⟩], 1⟩ =
      ([Reply.badRequest "Error: No non-started task."], ⟨[⟨0, 0⟩], 1⟩) := by
  refine ⟨by decide, by decide, by decide, ?_⟩
  show ((getNewTask ⟨[⟨0, 0⟩], 1⟩).1 :: (fetchN 0 (getNewTask ⟨[⟨0, 0⟩], 1⟩).2).1,
    (fetchN 0 (getNewTask ⟨[⟨0, 0⟩], 1⟩).2).2) = _
  rw [getNewTask_stranded]
  rfl

/-- C4, amended: for every store, every cursor `c` with `0 ≤ c ≤ length` and
every `N ≥ 1`, if at least `N` entries at indices `≥ c` are Pending, then `N`
calls of `getNewTask`, executed one after the other with nothing in between, all
answer with a task, the `N` ids are pairwise distinct, and each of them is
stored as `{id, 1}` afterwards. -/
theorem fetchN_distinct_claims (ds : List Task) (c : Int) (N : Nat) (h0 : 0 ≤ c)
    (_hc : c ≤ ds.length) (_hN : 1 ≤ N) (hp : N ≤ pendingFrom ds c.toNat) :
    ∃ ids : List Int, ids.length = N ∧ ids.Nodup ∧
      (fetchN N ⟨ds, c⟩).1 = ids.map (fun (i : Int) => Reply.task ⟨i, 1⟩) ∧
      ∀ i ∈ ids, index (fetchN N ⟨ds, c⟩).2.datastore i = some ⟨i, 1⟩ := by
  obtain ⟨n, rfl⟩ := Int.eq_ofNat_of_zero_le h0
  rw [Int.toNat_ofNat] at hp
  obtain ⟨ids, final, c1, hrun, hlen, hnd, _, _, hfin, _⟩ := fetchN_claims N ds n hp
  refine ⟨ids.map (fun (i : Nat) => (i : Int)), by simp [hlen],
    hnd.map Nat.cast_injective, ?_, ?_⟩
  · rw [hrun, List.map_map]
    rfl
  · intro i hi
    obtain ⟨m, hm, rfl⟩ := List.mem_map.mp hi
    rw [hrun]
    show index final (m : Int) = _
    rw [index_natCast]
    exact hfin m hm

/-- C4, amended, at the store `[Done, Pending, InProgress, Pending]` with the
cursor at 0 and two calls. -/
theorem fetchN_distinct_claims_witness :
    (0 : Int) ≤ 0 ∧
    (0 : Int) ≤ ([(⟨0, 2⟩ : Task), ⟨1, 0⟩, ⟨2, 1⟩, ⟨3, 0⟩].length : Int) ∧
    1 ≤ 2 ∧ 2 ≤ pendingFrom [⟨0, 2⟩, ⟨1, 0⟩, ⟨2, 1⟩, ⟨3, 0⟩] (0 : Int).toNat ∧
    ∃ ids : List Int, ids.length = 2 ∧ ids.Nodup ∧
      (fetchN 2 ⟨[⟨0, 2⟩, ⟨1, 0⟩, ⟨2, 1⟩, ⟨3, 0⟩], 0⟩).1 =
        ids.map (fun (i : Int) => Reply.task ⟨i, 1⟩) ∧
      ∀ i ∈ ids,
        index (fetchN 2 ⟨[⟨0, 2⟩, ⟨1, 0⟩, ⟨2, 1⟩, ⟨3, 0⟩], 0⟩).2.datastore i = some ⟨i, 1⟩ :=
  ⟨by decide, by decide, by decide, by decide,
    fetchN_distinct_claims [⟨0, 2⟩, ⟨1, 0⟩, ⟨2, 1⟩, ⟨3, 0⟩] 0 2 (by decide) (by decide)
      (by decide) (by decide)⟩

/-- C9: for every store and every cursor `c` with `0 ≤ c ≤ length`, after
`getNewTask` the cursor is `c + r`, where `r` is the length of the maximal run
of Done entries starting exactly at `c` (all entries in `[c, c + r)` are Done and
the entry at `c + r`, if any, is not); so the cursor does not decrease and does
not exceed the length; `finishTask`, the lease timer, `newTask` and `setByID`
leave the cursor unchanged. -/
theorem cursor_advances_over_done_run (ds : List Task) (c : Int) (h0 : 0 ≤ c)
    (hc : c ≤ ds.length) :
    (getNewTask ⟨ds, c⟩).2.oldestNotFinishedTask = c + (doneRun ds c.toNat : Int) ∧
    (∀ j : Int, c ≤ j → j < c + (doneRun ds c.toNat : Int) → stateOf ds j = some 2) ∧
    stateOf ds (c + (doneRun ds c.toNat : Int)) ≠ some 2 ∧
    c ≤ (getNewTask ⟨ds, c⟩).2.oldestNotFinishedTask ∧
    (getNewTask ⟨ds, c⟩).2.oldestNotFinishedTask ≤ (getNewTask ⟨ds, c⟩).2.datastore.length ∧
    (∀ id : Int, (finishTask ⟨ds, c⟩ id).2.oldestNotFinishedTask = c) ∧
    (∀ (id : Int) (db : DB), leaseTimer ⟨ds, c⟩ id = some db → db.oldestNotFinishedTask = c) ∧
    (newTask ⟨ds, c⟩).2.oldestNotFinishedTask = c ∧
    (∀ t, (setByID ⟨ds, c⟩ t).2.oldestNotFinishedTask = c) := by
  obtain ⟨n, rfl⟩ := Int.eq_ofNat_of_zero_le h0
  have hn : n ≤ ds.length := by exact_mod_cast hc
  have hb := doneRun_bound ds _ n rfl hn
  rw [Int.toNat_ofNat]
  have hcur : (getNewTask ⟨ds, (n : Int)⟩).2.oldestNotFinishedTask =
      ((n + doneRun ds n : Nat) : Int) := by
    rcases getNewTask_cases ds n with ⟨_, hres⟩ | ⟨j, _, _, hres⟩ <;> rw [hres]
  have hlen : (getNewTask ⟨ds, (n : Int)⟩).2.datastore.length = ds.length := by
    rcases getNewTask_cases ds n with ⟨_, hres⟩ | ⟨j, _, _, hres⟩ <;> rw [hres]
    exact List.length_set ds j _
  refine ⟨by rw [hcur]; push_cast; rfl, ?_, ?_, by rw [hcur]; push_cast; omega,
    by rw [hcur, hlen]; exact_mod_cast hb, fun id => finishTask_cursor ⟨ds, n⟩ id,
    fun id db h => leaseTimer_cursor ⟨ds, n⟩ db id h, by rw [newTask_out_of_range],
    fun t => setByID_cursor ⟨ds, n⟩ t⟩
  · intro j hj hjr
    obtain ⟨m, rfl⟩ := Int.eq_ofNat_of_zero_le (by omega : 0 ≤ j)
    have hm : m < n + doneRun ds n := by exact_mod_cast hjr
    exact stateOf_natCast_done ds m (by omega)
      (fun t ht => doneRun_all_done ds _ n rfl m t (by omega) hm ht)
  · intro hs
    have hs2 : stateOf ds ((n + doneRun ds n : Nat) : Int) = some 2 := by
      push_cast
      exact hs
    obtain ⟨t, ht, hts⟩ := (stateOf_natCast ds _ 2).mp hs2
    exact doneRun_stop ds _ n rfl t ht hts

/-- C9 at the store `[Done, Done, InProgress, Done]` with the cursor at 0. -/
theorem cursor_advances_over_done_run_witness :
    (0 : Int) ≤ 0 ∧
    (0 : Int) ≤ ([(⟨0, 2⟩ : Task), ⟨1, 2⟩, ⟨2, 1⟩, ⟨3, 2⟩].length : Int) ∧
    (getNewTask ⟨[⟨0, 2⟩, ⟨1, 2⟩, ⟨2, 1⟩, ⟨3, 2⟩], 0⟩).2.oldestNotFinishedTask =
      0 + (doneRun [⟨0, 2⟩, ⟨1, 2⟩, ⟨2, 1⟩, ⟨3, 2⟩] (0 : Int).toNat : Int) ∧
    doneRun [⟨0, 2⟩, ⟨1, 2⟩, ⟨2, 1⟩, ⟨3, 2⟩] (0 : Int).toNat = 2 :=
  ⟨by decide, by decide,
    (cursor_advances_over_done_run [⟨0, 2⟩, ⟨1, 2⟩, ⟨2, 1⟩, ⟨3, 2⟩] 0 (by decide)
      (by decide)).1, by decide⟩

/-- C10: the predicate `CursorInv` (cursor `≤` length and every entry below the
cursor Done) is preserved by `getNewTask`, by `finishTask` with `id` in range
and by the lease timer of an `id` in range, hence by every sequence of
operations without `setByID`; under it no entry behind the cursor is Pending or
InProgress, the lease timer changes nothing behind the cursor, and `getNewTask`
claims the lowest-indexed Pending entry of the whole store; `setByID` can break
it and strand a Pending entry behind the cursor. -/
theorem cursorInv_preserved (ds : List Task) (c : Int) (h0 : 0 ≤ c)
    (hinv : CursorInv ⟨ds, c⟩) :
    CursorInv (getNewTask ⟨ds, c⟩).2 ∧
    (∀ id : Int, 0 ≤ id → id < ds.length → CursorInv (finishTask ⟨ds, c⟩ id).2) ∧
    (∀ id : Int, 0 ≤ id → id < ds.length →
      ∃ db, leaseTimer ⟨ds, c⟩ id = some db ∧ CursorInv db) ∧
    (∀ ops, CursorInv (run ⟨ds, c⟩ ops)) ∧
    (∀ j : Int, 0 ≤ j → j < c → stateOf ds j ≠ some 0 ∧ stateOf ds j ≠ some 1) ∧
    (∀ id : Int, 0 ≤ id → id < c → leaseTimer ⟨ds, c⟩ id = some ⟨ds, c⟩) ∧
    ((∃ i : Int, stateOf ds i = some 0) →
      ∃ (i : Int) (db : DB), stateOf ds i = some 0 ∧ (∀ j : Int, j < i → stateOf ds j ≠ some 0) ∧
        getNewTask ⟨ds, c⟩ = (Reply.task ⟨i, 1⟩, db)) ∧
    (CursorInv ⟨[⟨0, 2⟩], 1⟩ ∧
      setByID ⟨[⟨0, 2⟩], 1⟩ ⟨0, 0⟩ = (Reply.success, ⟨[⟨0, 0⟩], 1⟩) ∧
      ¬ CursorInv ⟨[⟨0, 0⟩], 1⟩ ∧
      stateOf [⟨0, 0⟩] 0 = some 0 ∧
      getNewTask ⟨[⟨0, 0⟩], 1⟩ =
        (Reply.badRequest "Error: No non-started task.", ⟨[⟨0, 0⟩], 1⟩)) := by
  have hle : c ≤ (ds.length : Int) := hinv.1
  have hdone : ∀ j : Int, 0 ≤ j → j < c → stateOf ds j = some 2 := hinv.2
  refine ⟨getNewTask_preserves _ hinv, fun id _ _ => finishTask_preserves _ id hinv, ?_,
    fun ops => run_preserves ops _ hinv, ?_, ?_, ?_,
    cursorInv_done_head, by decide, not_cursorInv_stranded, by decide, getNewTask_stranded⟩
  · intro id hid0 hidlt
    have hp := leaseTimer_preserves ⟨ds, c⟩ id hinv
    by_cases hs : stateOf ds id = some 1
    · obtain ⟨ds1, h1, _⟩ := leaseTimer_inProgress ds c id hid0 hidlt hs
      rw [h1] at hp
      exact ⟨_, h1, hp⟩
    · exact ⟨_, leaseTimer_not_inProgress ds c id hid0 hidlt hs, hinv⟩
  · intro j hj0 hj
    rw [hdone j hj0 hj]
    exact ⟨by simp, by simp⟩
  · intro id hid0 hid
    apply leaseTimer_not_inProgress ds c id hid0 (by omega)
    rw [hdone id hid0 hid]
    simp
  · rintro ⟨i, hi⟩
    obtain ⟨n, rfl⟩ := Int.eq_ofNat_of_zero_le h0
    have hi0 : 0 ≤ i := by
      by_contra hneg
      rw [stateOf_of_neg ds i (by omega)] at hi
      cases hi
    have hin : (n : Int) ≤ i := by
      by_contra hlt
      rw [hdone i hi0 (by omega)] at hi
      simp at hi
    rcases getNewTask_cases ds n with ⟨hnone, _⟩ | ⟨j, hfp, _, hres⟩
    · obtain ⟨m, t, hm, ht, hts⟩ := (pending_int_iff ds n).mp ⟨i, hin, hi⟩
      exact absurd hts (hnone m t hm ht)
    · obtain ⟨_, hjs, hmin⟩ := firstPending_int ds n j hfp
      refine ⟨(j : Int), _, hjs, ?_, hres⟩
      intro k hk hks
      have hk0 : 0 ≤ k := by
        by_contra hneg
        rw [stateOf_of_neg ds k (by omega)] at hks
        cases hks
      by_cases hkn : (n : Int) ≤ k
      · exact hmin k hkn hk hks
      · rw [hdone k hk0 (by omega)] at hks
        simp at hks

/-- C10 at the store `[Done, InProgress, Pending]` with the cursor at 1. -/
theorem cursorInv_preserved_witness :
    (0 : Int) ≤ 1 ∧
    CursorInv ⟨[⟨0, 2⟩, ⟨1, 1⟩, ⟨2, 0⟩], 1⟩ ∧
    CursorInv (getNewTask ⟨[⟨0, 2⟩, ⟨1, 1⟩, ⟨2, 0⟩], 1⟩).2 ∧
    CursorInv (finishTask ⟨[⟨0, 2⟩, ⟨1, 1⟩, ⟨2, 0⟩], 1⟩ 1).2 := by
  have hinv : CursorInv ⟨[⟨0, 2⟩, ⟨1, 1⟩, ⟨2, 0⟩], 1⟩ := by
    refine ⟨by decide, ?_⟩
    intro j hj0 hj
    have hj1 : j < 1 := hj
    obtain rfl : j = 0 := by omega
    rfl
  have h := cursorInv_preserved [⟨0, 2⟩, ⟨1, 1⟩, ⟨2, 0⟩] 1 (by decide) hinv
  exact ⟨by decide, hinv, h.1, h.2.1 1 (by decide) (by decide)⟩

end Microsrv
